import Mathlib

/-!
Verification of the `goto-implementations` editor extension
(source: `src/extension.ts`).

The development shallow-embeds the two algorithmic components of the
extension:

* `InterfaceCodeLensProvider.provideCodeLenses` — the line-oriented
  interface scanner, embedded here as `scanAux` / `provideCodeLenses`
  over a document given as a list of lines (each a `List Char`);
* the `goto-implementations.gotoImplementation` command handler —
  embedded as `gotoImplementation` over an injected `Host` record that
  stands for the vscode services the handler calls.

JavaScript strings are modelled as `List Char`; the JS regular
expressions used by the source are deterministic over their input
(adjacent character classes are disjoint, so greedy matching never needs
to backtrack) and are embedded as the explicit maximal-munch matchers
`matchIfaceStart`, `matchMethodName` and `methodTest` below, each with a
comment recording the regex it implements and why the translation is
exact.

`vscode.Position` validates its arguments and throws when a coordinate
is negative; this host behaviour is modelled by `mkPosition` returning
`Except.error`, which matters because the scanner can pass the `-1`
result of `String.prototype.indexOf` to the constructor.
-/

/-- Character class of the JS regex `\s` restricted to ASCII: space, tab,
newline, carriage return, vertical tab, form feed.  The documents under
consideration contain only ASCII whitespace, for which this matches the
ECMAScript definition. -/
def isWsChar (c : Char) : Bool :=
  (c == ' ') || (c == '\t') || (c == '\n') || (c == '\r') || (c == '\x0b') || (c == '\x0c')

/-- Character class of the JS regex `\w` = `[A-Za-z0-9_]`. -/
def isWordChar (c : Char) : Bool :=
  c.isAlpha || c.isDigit || (c == '_')

/-- Model of `String.prototype.trim`: strip whitespace from both ends. -/
def trimChars (cs : List Char) : List Char :=
  ((cs.dropWhile isWsChar).reverse.dropWhile isWsChar).reverse

/-- Model of `String.prototype.startsWith`: does `cs` begin with `pre`? -/
def startsWithL : List Char → List Char → Bool
  | _, [] => true
  | [], _ :: _ => false
  | c :: cs, p :: ps => (c == p) && startsWithL cs ps

/-- Number of occurrences of the character `c` in a line; models
`(lineText.match(/{/g) || []).length` and its `}` counterpart. -/
def countChar (c : Char) (cs : List Char) : Nat :=
  (cs.filter (fun x => x == c)).length

/-- Helper for `indexOfL`: first index at or after `k` where `needle`
occurs in the remaining haystack, `-1` if absent. -/
def indexOfAux (needle : List Char) : List Char → Nat → Int
  | [], k => if needle.isEmpty then Int.ofNat k else -1
  | c :: cs, k =>
    if startsWithL (c :: cs) needle then Int.ofNat k else indexOfAux needle cs (k + 1)

/-- Model of `String.prototype.indexOf`: index of the first occurrence of
`needle` in `hay`, or `-1` when there is none. -/
def indexOfL (hay needle : List Char) : Int :=
  indexOfAux needle hay 0

/-- Model of `String.prototype.includes` (used for the `"mock"` test). -/
def jsIncludes (hay needle : List Char) : Bool :=
  indexOfL hay needle != -1

/-- Model of `String.prototype.toLowerCase` on ASCII text. -/
def toLowerChars (cs : List Char) : List Char :=
  cs.map Char.toLower

/-- Model of `text.split("\n")[0]`: everything before the first newline. -/
def firstLineChars (cs : List Char) : List Char :=
  cs.takeWhile (fun c => c != '\n')

/-- The opening-brace character, `{`. -/
def braceOpenC : Char := '\x7b'

/-- The closing-brace character, `}`. -/
def braceCloseC : Char := '\x7d'

/-- The literal `type` of `interfaceStartRegex`. -/
def typeKw : List Char := "type".toList

/-- The literal `interface` of `interfaceStartRegex`. -/
def interfaceKw : List Char := "interface".toList

/-- The line-comment marker `//` checked by the scanner. -/
def commentMarker : List Char := "//".toList

/-- The substring `"mock"` used to classify implementation candidates. -/
def mockKw : List Char := "mock".toList

/-- Consume a literal; `dropLit lit cs` is `some rest` iff `cs = lit ++ rest`. -/
def dropLit : List Char → List Char → Option (List Char)
  | [], cs => some cs
  | _ :: _, [] => none
  | p :: ps, c :: cs => if c == p then dropLit ps cs else none

/-- Consume `\s+` (at least one whitespace character, maximal run). -/
def dropWs1 : List Char → Option (List Char)
  | [] => none
  | c :: cs => if isWsChar c then some (List.dropWhile isWsChar cs) else none

/-- Model of `interfaceStartRegex = /^type\s+(\w+)\s+interface\s*{/`,
returning the captured group (the interface name) on success.  The regex
is applied by the source to the trimmed line text.  Greedy matching of
this pattern never backtracks: `\s` and `\w` are disjoint classes, the
literal `interface` starts with the non-whitespace `i`, and `{` is not
whitespace, so each `\s+`/`\w+`/`\s*` consumes exactly its maximal run.
Note the regex has no `$` anchor: anything may follow the brace. -/
def matchIfaceStart (cs : List Char) : Option (List Char) :=
  match dropLit typeKw cs with
  | none => none
  | some cs1 =>
    match dropWs1 cs1 with
    | none => none
    | some cs2 =>
      let name := cs2.takeWhile isWordChar
      if name.isEmpty then none
      else
        match dropWs1 (cs2.dropWhile isWordChar) with
        | none => none
        | some cs4 =>
          match dropLit interfaceKw cs4 with
          | none => none
          | some cs5 =>
            match cs5.dropWhile isWsChar with
            | c :: _ => if c == braceOpenC then some name else none
            | [] => none

/-- Model of `methodText.match(/^\s*(\w+)\s*\(/)`, returning the captured
method name.  As with `matchIfaceStart`, greedy matching is forced at
every step (`\s`/`\w`/`(` are pairwise disjoint), so maximal munch is
exact. -/
def matchMethodName (cs : List Char) : Option (List Char) :=
  let cs1 := cs.dropWhile isWsChar
  let name := cs1.takeWhile isWordChar
  if name.isEmpty then none
  else
    match (cs1.dropWhile isWordChar).dropWhile isWsChar with
    | c :: _ => if c == '(' then some name else none
    | [] => none

/-- Model of `interfaceMethodRegex.test`, where
`interfaceMethodRegex = /^\s*(\w+)\s*\([^)]*\)\s*(\([^)]*\)?|[^\n]*)?$/`.
On newline-free input (lines are split on newlines, and accumulated
method text joins trimmed lines with spaces) the trailing optional group
always succeeds through its `[^\n]*` alternative, so the test reduces to
whether the text starts with `\s*\w+\s*\([^)]*\)` — that is, whether a
closing parenthesis follows the opening one.  `[^)]*` cannot cross `)`,
so it is the maximal run of non-`)` characters. -/
def methodTest (cs : List Char) : Bool :=
  let cs1 := cs.dropWhile isWsChar
  let name := cs1.takeWhile isWordChar
  if name.isEmpty then false
  else
    match (cs1.dropWhile isWordChar).dropWhile isWsChar with
    | '(' :: rest => !((rest.dropWhile (fun c => c != ')')).isEmpty)
    | _ => false

/-- Model of `vscode.Position` (0-based line and character). -/
structure Position where
  line : Nat
  character : Nat
deriving Repr, DecidableEq

/-- Model of the `vscode.Position` constructor, which validates its
arguments and throws `illegalArgument` when either is negative (vscode
`extHostTypes`).  The scanner can reach the negative-character case via
`indexOf` returning `-1`. -/
def mkPosition (line character : Int) : Except String Position :=
  if line < 0 then Except.error "line must be non-negative"
  else if character < 0 then Except.error "character must be non-negative"
  else Except.ok ⟨line.toNat, character.toNat⟩

/-- Model of `vscode.Range` as a pair of positions (`end` is a Lean
keyword, so the field is called `stop`). -/
structure Range where
  start : Position
  stop : Position
deriving Repr, DecidableEq

/-- Model of the `vscode.CodeLens` built by the scanner: its range plus
the constant title, the command identifier, and the method-name argument
passed to the command. -/
structure CodeLens where
  range : Range
  title : String
  command : String
  methodName : String
deriving Repr, DecidableEq

/-- The code lens the source constructs for a method name and its range. -/
def mkLens (name : String) (p1 p2 : Position) : CodeLens :=
  ⟨⟨p1, p2⟩, "impls", "goto-implementations.gotoImplementation", name⟩

/-- Model of `vscode.CancellationToken` (the only observable the source
could consult is the flag; the source never reads it). -/
structure CancellationToken where
  isCancellationRequested : Bool
deriving Repr, DecidableEq

/-- Scanner control state, one constructor per control point of the
`provideCodeLenses` loop:

* `outside` — `inInterface = false`;
* `inside name bc` — `inInterface = true` with `interfaceName = name`
  and `bracketCount = bc`, at the top of the `for` loop;
* `accum orig acc name bc` — inside the look-ahead `while` loop that
  coalesces a multi-line signature: `orig` is `lineText` of the line the
  candidate started on (used for the `indexOf` position lookup), `acc`
  is `methodText` so far.  Lines consumed by the `while` loop skip the
  interface-start, brace-counting and comment checks, exactly as in the
  source (the loop advances `i` past them). -/
inductive ScanSt where
  | outside : ScanSt
  | inside (interfaceName : String) (bracketCount : Int) : ScanSt
  | accum (origLine : List Char) (methodText : List Char) (interfaceName : String) (bracketCount : Int) : ScanSt
deriving Repr, DecidableEq

/-- The anchor-emission step of the scanner: `methodText.match` for the
name, then `lineText.indexOf` on the line the candidate started on, then
the two `vscode.Position` constructions.  `i` is the loop index at the
moment of emission — which, after look-ahead accumulation, is the index
of the last consumed line, not of `origLine`. -/
def emitLens (origLine methodText : List Char) (i : Nat) : Except String (Option CodeLens) :=
  match matchMethodName methodText with
  | none => Except.ok none
  | some mname =>
    let methodStart := indexOfL origLine mname
    match mkPosition (Int.ofNat i) methodStart with
    | Except.error e => Except.error e
    | Except.ok p1 =>
      match mkPosition (Int.ofNat i) (methodStart + Int.ofNat mname.length) with
      | Except.error e => Except.error e
      | Except.ok p2 => Except.ok (some (mkLens (String.mk mname) p1 p2))

/-- Prepend an emitted lens (if any) to the lenses of the remaining scan;
an emission error aborts the whole scan, as a thrown exception does in
the source. -/
def withEmit : Except String (Option CodeLens) → Except String (List CodeLens) → Except String (List CodeLens)
  | Except.error e, _ => Except.error e
  | Except.ok none, rest => rest
  | Except.ok (some lens), rest => rest.map (fun ls => lens :: ls)

/-- The scanner loop of `provideCodeLenses`, one physical line per step;
`i` is the loop index of the current line.  Each arm mirrors the source:
interface-start match first (it resets `bracketCount` to `1` and
`continue`s without counting other braces on the line); inside an
interface, braces are netted, `bracketCount = 0` closes the block before
the comment check, `//` lines are skipped, and any other line starts a
candidate method signature — immediately emitted when
`interfaceMethodRegex` accepts it, handed to the accumulation state when
a further line exists, and emitted as-is at the end of the document
(`i < lineCount - 1` fails exactly when no line follows). -/
def scanAux : List (List Char) → Nat → ScanSt → Except String (List CodeLens)
  | [], _, _ => Except.ok []
  | l :: rest, i, ScanSt.outside =>
    match matchIfaceStart (trimChars l) with
    | some nm => scanAux rest (i + 1) (ScanSt.inside (String.mk nm) 1)
    | none => scanAux rest (i + 1) ScanSt.outside
  | l :: rest, i, ScanSt.inside ifName bc =>
    match matchIfaceStart (trimChars l) with
    | some nm => scanAux rest (i + 1) (ScanSt.inside (String.mk nm) 1)
    | none =>
      let bc1 := bc + Int.ofNat (countChar braceOpenC l) - Int.ofNat (countChar braceCloseC l)
      if bc1 = 0 then scanAux rest (i + 1) ScanSt.outside
      else if startsWithL (trimChars l) commentMarker then
        scanAux rest (i + 1) (ScanSt.inside ifName bc1)
      else
        let acc := trimChars l
        if methodTest acc then
          withEmit (emitLens l acc i) (scanAux rest (i + 1) (ScanSt.inside ifName bc1))
        else
          match rest with
          | [] => withEmit (emitLens l acc i) (Except.ok [])
          | _ :: _ => scanAux rest (i + 1) (ScanSt.accum l acc ifName bc1)
  | l :: rest, i, ScanSt.accum orig acc ifName bc =>
    let acc1 := acc ++ ' ' :: trimChars l
    if methodTest acc1 then
      withEmit (emitLens orig acc1 i) (scanAux rest (i + 1) (ScanSt.inside ifName bc))
    else
      match rest with
      | [] => withEmit (emitLens orig acc1 i) (Except.ok [])
      | _ :: _ => scanAux rest (i + 1) (ScanSt.accum orig acc1 ifName bc)

/-- Model of `InterfaceCodeLensProvider.provideCodeLenses`.  The document
is its list of lines; the cancellation token is accepted but — exactly
as in the source — never consulted. -/
def provideCodeLenses (_token : CancellationToken) (lines : List (List Char)) : Except String (List CodeLens) :=
  scanAux lines 0 ScanSt.outside

/-- Model of `vscode.Uri`: only `fsPath` is observable to the handler. -/
structure Uri where
  fsPath : String
deriving Repr, DecidableEq

/-- Model of `vscode.Location`: a file plus a range in it. -/
structure Location where
  uri : Uri
  range : Range
deriving Repr, DecidableEq

/-- Model of an opened `vscode.TextDocument`, reduced to the one
operation the handler performs on it: `getText` over a range. -/
structure TextDoc where
  getText : Range → String

/-- The quick-pick entry built per implementation candidate. -/
structure QuickPickItem where
  label : String
  detail : String
  description : String
  location : Location
  isMock : Bool
deriving Repr, DecidableEq

/-- The host services the `gotoImplementation` command handler calls,
injected as a record so the handler is a pure function of them:
`executeImplementationProvider` models
`vscode.commands.executeCommand("vscode.executeImplementationProvider", uri, position)`
(a rejected promise is `Except.error`; `undefined` or an empty result is
`Except.ok []` — the source treats both identically via
`implementations && implementations.length > 0`), and the remaining
fields model the equally-named `vscode` APIs.  `showQuickPick` returns
`none` on user cancellation and is not fallible: the claims under
verification concern failures of the query, opening, and navigation
steps. -/
structure Host where
  executeImplementationProvider : Uri → Position → Except String (List Location)
  openTextDocument : Uri → Except String TextDoc
  asRelativePath : Uri → String
  showQuickPick : List QuickPickItem → Option QuickPickItem
  showTextDocument : Location → Except String Unit

/-- Observable outcome of one `gotoImplementation` invocation: the
informational messages, error messages, number of quick-pick
invocations, and navigations requested. -/
structure Effects where
  infos : List String
  errors : List String
  pickerCalls : Nat
  navigations : List Location
deriving Repr, DecidableEq

/-- Model of the JS `Number` conversion applied to the `isMock` flag in
the sort comparator: `Number(false) = 0`, `Number(true) = 1`. -/
def jsNum (b : Bool) : Nat := if b then 1 else 0

/-- Stable insertion step for `sortItems`: the incoming element `a`
precedes exactly the already-placed elements with a strictly larger sort
key. -/
def insertItem (a : QuickPickItem) : List QuickPickItem → List QuickPickItem
  | [] => [a]
  | b :: bs => if jsNum a.isMock ≤ jsNum b.isMock then a :: b :: bs else b :: insertItem a bs

/-- Model of `items.sort((a, b) => Number(a.isMock) - Number(b.isMock))`.
`Array.prototype.sort` is required by ECMAScript (2019 onward) to be
stable, and this comparator is a consistent total preorder, so the
sorted result is uniquely determined; stable insertion sort computes
exactly that result. -/
def sortItems : List QuickPickItem → List QuickPickItem
  | [] => []
  | a :: as => insertItem a (sortItems as)

/-- The error notice text built in the handler's `catch` block:
`"Error while finding implementations: " + error`. -/
def errMsg (e : String) : String := "Error while finding implementations: " ++ e

/-- The informational notice for the zero-result case:
`` `No implementations found for ${methodName}` ``. -/
def noImplMsg (methodName : String) : String := "No implementations found for " ++ methodName

/-- One step of the `implementations.map` callback: open the candidate's
document, take the first line of the trimmed text in its range as the
preview, compute the relative path, and classify as mock when the
lower-cased `fsPath` contains `"mock"`. -/
def buildItem (h : Host) (loc : Location) : Except String QuickPickItem :=
  match h.openTextDocument loc.uri with
  | Except.error e => Except.error e
  | Except.ok doc =>
    let text := doc.getText loc.range
    let preview := String.mk (firstLineChars (trimChars text.toList))
    let relativePath := h.asRelativePath loc.uri
    let isMock := jsIncludes (toLowerChars loc.uri.fsPath.toList) mockKw
    Except.ok ⟨(if isMock then "🧪 MOCK" else "🔧 IMPL") ++ " — " ++ preview,
               relativePath,
               (if isMock then "Mock implementation" else "Real implementation"),
               loc, isMock⟩

/-- The `Promise.all(implementations.map(...))` step: build every item;
a failure rejects the whole batch (deterministically the first failing
candidate in document order in this model). -/
def buildItems (h : Host) : List Location → Except String (List QuickPickItem)
  | [] => Except.ok []
  | loc :: locs =>
    match buildItem h loc, buildItems h locs with
    | Except.ok it, Except.ok its => Except.ok (it :: its)
    | Except.error e, _ => Except.error e
    | _, Except.error e => Except.error e

/-- Model of the `goto-implementations.gotoImplementation` command
handler.  The nested matches mirror the source's `try`/`catch`: every
`Except.error` produced by a host call lands in an `Effects` value whose
`errors` list carries the catch block's notice, so no failure escapes
the handler (the function is total).  Effects already performed before a
late failure (the quick-pick invocation before a navigation error) are
retained, as they are in the source. -/
def gotoImplementation (h : Host) (uri : Uri) (range : Range) (methodName : String) : Effects :=
  match h.executeImplementationProvider uri range.start with
  | Except.error e => ⟨[], [errMsg e], 0, []⟩
  | Except.ok implementations =>
    if implementations.length > 0 then
      match buildItems h implementations with
      | Except.error e => ⟨[], [errMsg e], 0, []⟩
      | Except.ok items =>
        match h.showQuickPick (sortItems items) with
        | none => ⟨[], [], 1, []⟩
        | some selected =>
          match h.showTextDocument selected.location with
          | Except.ok _ => ⟨[], [], 1, [selected.location]⟩
          | Except.error e => ⟨[], [errMsg e], 1, []⟩
    else ⟨[noImplMsg methodName], [], 0, []⟩

/-- Data of one syntactically simple one-line method declaration, for
the interface-block theorem: the physical line, the method name the
scanner extracts from it, and the column of the name's first occurrence
on the line. -/
structure SimpleSpec where
  line : List Char
  name : List Char
  col : Nat

/-- A `SimpleSpec` is a simple one-line method line in the sense of the
specification: the line is not an interface declaration, contains no
brace characters, is not a comment line, is accepted whole by
`interfaceMethodRegex` (so no look-ahead accumulation happens), yields
`name` as the extracted method name, and `name` first occurs at column
`col`. -/
def SimpleMethod (m : SimpleSpec) : Prop :=
  matchIfaceStart (trimChars m.line) = none ∧
  countChar braceOpenC m.line = 0 ∧
  countChar braceCloseC m.line = 0 ∧
  startsWithL (trimChars m.line) commentMarker = false ∧
  methodTest (trimChars m.line) = true ∧
  matchMethodName (trimChars m.line) = some m.name ∧
  indexOfL m.line m.name = Int.ofNat m.col

instance (m : SimpleSpec) : Decidable (SimpleMethod m) := by
  unfold SimpleMethod; infer_instance

/-- The anchors the scanner should emit for a list of simple method
lines whose first line sits at index `i`. -/
def lensesFrom : Nat → List SimpleSpec → List CodeLens
  | _, [] => []
  | i, m :: ms => mkLens (String.mk m.name) ⟨i, m.col⟩ ⟨i, m.col + m.name.length⟩ :: lensesFrom (i + 1) ms

/-- A document line consisting of the single closing brace. -/
def closeLine : List Char := [braceCloseC]

/-- Concrete document of the specification's two-line-signature
scenario: a method name on one line, its parameters on the next. -/
def multilineDoc : List (List Char) :=
  ["type X interface \x7b".toList, "\tFetch(".toList, "\t\tid string) error".toList, "\x7d".toList]

/-- Concrete document with a blank line inside the interface body,
followed by an ordinary method line. -/
def blankLineDoc : List (List Char) :=
  ["type X interface \x7b".toList, "".toList, "\tFetch(id string) error".toList, "\x7d".toList]

/-- Concrete document of the specification's happy-path scenario. -/
def fetcherDoc : List (List Char) :=
  ["type Fetcher interface \x7b".toList, "\tFetch(id string) (Item, error)".toList, "\x7d".toList]

/-- Concrete document whose interface declaration opens and closes its
brace on the declaration line. -/
def oneLineDeclDoc : List (List Char) :=
  ["type X interface \x7b\x7d".toList, "\tFoo() error".toList, "\x7d".toList]

/-- A location at a fixed dummy range inside the file at path `p`. -/
def demoLoc (p : String) : Location := ⟨⟨p⟩, ⟨⟨0, 0⟩, ⟨0, 0⟩⟩⟩

/-- Sample candidates for the ranking scenario (two mocks, two reals). -/
def mockItemA : QuickPickItem := ⟨"mA", "", "", demoLoc "a_mock.go", true⟩

def realItemB : QuickPickItem := ⟨"rB", "", "", demoLoc "b.go", false⟩

def mockItemC : QuickPickItem := ⟨"mC", "", "", demoLoc "c_mock.go", true⟩

def realItemD : QuickPickItem := ⟨"rD", "", "", demoLoc "d.go", false⟩

/-- A concrete anchor range and document identity for the orchestrator
scenarios. -/
def demoRange : Range := ⟨⟨1, 1⟩, ⟨1, 6⟩⟩

def demoUri : Uri := ⟨"/w/iface.go"⟩

/-- A host whose implementation query returns zero locations. -/
def hostNoResults : Host :=
  ⟨fun _ _ => Except.ok [], fun _ => Except.error "unused", fun _ => "",
   fun _ => none, fun _ => Except.error "unused"⟩

/-- A host whose implementation query fails. -/
def hostQueryFails : Host :=
  ⟨fun _ _ => Except.error "boom", fun _ => Except.error "unused", fun _ => "",
   fun _ => none, fun _ => Except.error "unused"⟩

/-! ### Helper lemmas about the string primitives -/

theorem all_takeWhile_self (p : Char → Bool) (l : List Char) :
    (l.takeWhile p).all p = true := by
  induction l with
  | nil => rfl
  | cons c cs ih =>
    by_cases h : p c
    · simp [List.takeWhile_cons, h, ih]
    · simp [List.takeWhile_cons, h]

theorem dropWhile_append_of_all {p : Char → Bool} {xs : List Char} (ys : List Char)
    (h : xs.all p = true) : List.dropWhile p (xs ++ ys) = List.dropWhile p ys := by
  induction xs with
  | nil => rfl
  | cons c cs ih =>
    simp only [List.all_cons, Bool.and_eq_true] at h
    simp [List.dropWhile_cons, h.1, ih h.2]

theorem takeWhile_append_of_all {p : Char → Bool} {xs : List Char} (ys : List Char)
    (h : xs.all p = true) : List.takeWhile p (xs ++ ys) = xs ++ List.takeWhile p ys := by
  induction xs with
  | nil => rfl
  | cons c cs ih =>
    simp only [List.all_cons, Bool.and_eq_true] at h
    simp [List.takeWhile_cons, h.1, ih h.2]

theorem dropWhile_cons_of_neg {p : Char → Bool} {y : Char} (ys : List Char)
    (h : p y = false) : List.dropWhile p (y :: ys) = y :: ys := by
  simp [List.dropWhile_cons, h]

theorem takeWhile_cons_of_neg {p : Char → Bool} {y : Char} (ys : List Char)
    (h : p y = false) : List.takeWhile p (y :: ys) = [] := by
  simp [List.takeWhile_cons, h]

theorem dropWhile_append_cases (p : Char → Bool) (as bs : List Char) :
    List.dropWhile p (as ++ bs) = List.dropWhile p bs ∧ List.dropWhile p as = [] ∨
    List.dropWhile p (as ++ bs) = List.dropWhile p as ++ bs := by
  induction as with
  | nil => exact Or.inl ⟨rfl, rfl⟩
  | cons a as ih =>
    by_cases h : p a
    · simpa [List.dropWhile_cons, h] using ih
    · right
      simp [List.dropWhile_cons, h]

theorem wordChar_not_ws {c : Char} (h : isWordChar c = true) : isWsChar c = false := by
  by_contra hne
  have hw : isWsChar c = true := by
    cases hx : isWsChar c
    · exact absurd hx hne
    · rfl
  simp only [isWsChar, Bool.or_eq_true, beq_iff_eq] at hw
  rcases hw with ((((h1 | h1) | h1) | h1) | h1) | h1 <;> subst h1 <;> simp [isWordChar] at h

theorem startsWithL_self_append (xs ys : List Char) : startsWithL (xs ++ ys) xs = true := by
  induction xs with
  | nil => cases ys <;> rfl
  | cons c cs ih => simp [startsWithL, ih]

theorem indexOfAux_append_self (xs ys : List Char) (k : Nat) :
    indexOfAux ys (xs ++ ys) k ≠ -1 := by
  induction xs generalizing k with
  | nil =>
    cases ys with
    | nil =>
      have h0 : indexOfAux [] (([] : List Char) ++ []) k = Int.ofNat k := rfl
      rw [h0]
      exact fun hcon => Int.noConfusion hcon
    | cons c cs =>
      have hs : startsWithL (c :: cs) (c :: cs) = true := by
        simpa using startsWithL_self_append (c :: cs) []
      have h0 : indexOfAux (c :: cs) (([] : List Char) ++ (c :: cs)) k =
          if startsWithL (c :: cs) (c :: cs) = true then Int.ofNat k
          else indexOfAux (c :: cs) cs (k + 1) := rfl
      rw [h0, if_pos hs]
      exact fun hcon => Int.noConfusion hcon
  | cons x xs ih =>
    have h0 : indexOfAux ys ((x :: xs) ++ ys) k =
        if startsWithL (x :: (xs ++ ys)) ys = true then Int.ofNat k
        else indexOfAux ys (xs ++ ys) (k + 1) := rfl
    cases hs : startsWithL (x :: (xs ++ ys)) ys with
    | true =>
      rw [h0, if_pos hs]
      exact fun hcon => Int.noConfusion hcon
    | false =>
      rw [h0, if_neg (by simp [hs])]
      exact ih (k + 1)

theorem jsIncludes_append_self (xs ys : List Char) : jsIncludes (xs ++ ys) ys = true := by
  have h := indexOfAux_append_self xs ys 0
  simp only [jsIncludes, indexOfL, bne_iff_ne, ne_eq]
  exact h

theorem strToList_append (a b : String) : (a ++ b).toList = a.toList ++ b.toList := by
  cases a; cases b; rfl

/-! ### Lemmas about the regex building blocks -/

theorem dropLit_some {lit cs cs' : List Char} (h : dropLit lit cs = some cs') :
    cs = lit ++ cs' := by
  induction lit generalizing cs with
  | nil =>
    simp only [dropLit, Option.some.injEq] at h
    simpa using h
  | cons p ps ih =>
    cases cs with
    | nil => simp [dropLit] at h
    | cons c cs0 =>
      simp only [dropLit] at h
      by_cases hc : c == p
      · rw [if_pos hc] at h
        have hcp : c = p := by simpa using hc
        subst hcp
        simpa using ih h
      · rw [if_neg hc] at h
        exact absurd h (by simp)

theorem dropLit_append (lit cs : List Char) : dropLit lit (lit ++ cs) = some cs := by
  induction lit with
  | nil => rfl
  | cons p ps ih => simp [dropLit, ih]

theorem dropWs1_some {cs cs' : List Char} (h : dropWs1 cs = some cs') :
    ∃ ws, ws ≠ [] ∧ ws.all isWsChar = true ∧ cs = ws ++ cs' := by
  cases cs with
  | nil => simp [dropWs1] at h
  | cons c cs0 =>
    simp only [dropWs1] at h
    by_cases hc : isWsChar c
    · rw [if_pos hc] at h
      have hcs' : cs' = List.dropWhile isWsChar cs0 := by
        have := h
        simp only [Option.some.injEq] at this
        exact this.symm
      refine ⟨c :: List.takeWhile isWsChar cs0, by simp, ?_, ?_⟩
      · simp only [List.all_cons, Bool.and_eq_true]
        exact ⟨hc, all_takeWhile_self isWsChar cs0⟩
      · rw [hcs']
        simp [List.takeWhile_append_dropWhile]
    · rw [if_neg hc] at h
      exact absurd h (by simp)

theorem dropWs1_of_shape {ws rest : List Char} (h1 : ws ≠ []) (h2 : ws.all isWsChar = true)
    (h3 : List.dropWhile isWsChar rest = rest) :
    dropWs1 (ws ++ rest) = some rest := by
  cases ws with
  | nil => exact absurd rfl h1
  | cons w ws0 =>
    simp only [List.all_cons, Bool.and_eq_true] at h2
    simp only [List.cons_append, dropWs1, if_pos h2.1]
    rw [dropWhile_append_of_all rest h2.2, h3]

/-- Forward decomposition: a successful `matchIfaceStart` yields the
literal-keyword/whitespace/name decomposition of its input, with
arbitrary residue after the opening brace. -/
theorem matchIfaceStart_some_decomp {cs name : List Char}
    (h : matchIfaceStart cs = some name) :
    ∃ ws1 ws2 ws3 rest,
      cs = typeKw ++ (ws1 ++ (name ++ (ws2 ++ (interfaceKw ++ (ws3 ++ braceOpenC :: rest))))) ∧
      ws1 ≠ [] ∧ ws1.all isWsChar = true ∧
      name ≠ [] ∧ name.all isWordChar = true ∧
      ws2 ≠ [] ∧ ws2.all isWsChar = true ∧
      ws3.all isWsChar = true := by
  unfold matchIfaceStart at h
  cases h1 : dropLit typeKw cs with
  | none => rw [h1] at h; simp at h
  | some cs1 =>
    rw [h1] at h
    simp only at h
    cases h2 : dropWs1 cs1 with
    | none => rw [h2] at h; simp at h
    | some cs2 =>
      rw [h2] at h
      simp only at h
      by_cases h3 : (cs2.takeWhile isWordChar).isEmpty = true
      · rw [if_pos h3] at h; simp at h
      · rw [if_neg h3] at h
        cases h4 : dropWs1 (cs2.dropWhile isWordChar) with
        | none => rw [h4] at h; simp at h
        | some cs4 =>
          rw [h4] at h
          simp only at h
          cases h5 : dropLit interfaceKw cs4 with
          | none => rw [h5] at h; simp at h
          | some cs5 =>
            rw [h5] at h
            simp only at h
            cases h6 : cs5.dropWhile isWsChar with
            | nil => rw [h6] at h; simp at h
            | cons c crest =>
              rw [h6] at h
              simp only at h
              by_cases h7 : (c == braceOpenC) = true
              · rw [if_pos h7] at h
                have hname : cs2.takeWhile isWordChar = name := by
                  simpa using h
                have hc : c = braceOpenC := by simpa using h7
                subst hc
                obtain ⟨ws1, hw1ne, hw1all, hcs1⟩ := dropWs1_some h2
                obtain ⟨ws2, hw2ne, hw2all, hcs3⟩ := dropWs1_some h4
                refine ⟨ws1, ws2, cs5.takeWhile isWsChar, crest, ?_, hw1ne, hw1all, ?_, ?_, hw2ne, hw2all, all_takeWhile_self isWsChar cs5⟩
                · have hcs2 : cs2 = name ++ cs2.dropWhile isWordChar := by
                    rw [← hname]
                    simp [List.takeWhile_append_dropWhile]
                  have hcs5 : cs5 = cs5.takeWhile isWsChar ++ braceOpenC :: crest := by
                    rw [← h6]
                    simp [List.takeWhile_append_dropWhile]
                  have hcs4 : cs4 = interfaceKw ++ cs5 := dropLit_some h5
                  rw [hcs5] at hcs4
                  rw [dropLit_some h1]
                  rw [hcs1]
                  rw [hcs2]
                  rw [hcs3]
                  rw [hcs4]
                · rw [← hname]
                  simpa using h3
                · rw [← hname]
                  exact all_takeWhile_self isWordChar cs2
              · rw [if_neg h7] at h
                exact absurd h (by simp)

theorem wsChar_not_word {c : Char} (h : isWsChar c = true) : isWordChar c = false := by
  simp only [isWsChar, Bool.or_eq_true, beq_iff_eq] at h
  rcases h with ((((h1 | h1) | h1) | h1) | h1) | h1 <;> subst h1 <;> rfl

/-- Reverse direction: any input of the decomposed shape is accepted by
`matchIfaceStart`, whatever follows the opening brace. -/
theorem matchIfaceStart_of_shape {ws1 name ws2 ws3 rest : List Char}
    (h1 : ws1 ≠ []) (h2 : ws1.all isWsChar = true)
    (h3 : name ≠ []) (h4 : name.all isWordChar = true)
    (h5 : ws2 ≠ []) (h6 : ws2.all isWsChar = true)
    (h7 : ws3.all isWsChar = true) :
    matchIfaceStart (typeKw ++ (ws1 ++ (name ++ (ws2 ++ (interfaceKw ++ (ws3 ++ braceOpenC :: rest)))))) = some name := by
  obtain ⟨n0, name', rfl⟩ : ∃ n0 name', name = n0 :: name' := by
    cases name with
    | nil => exact absurd rfl h3
    | cons a b => exact ⟨a, b, rfl⟩
  obtain ⟨w0, ws2', rfl⟩ : ∃ w0 ws2', ws2 = w0 :: ws2' := by
    cases ws2 with
    | nil => exact absurd rfl h5
    | cons a b => exact ⟨a, b, rfl⟩
  have hn0 : isWordChar n0 = true := by
    simp only [List.all_cons, Bool.and_eq_true] at h4
    exact h4.1
  have hw0 : isWsChar w0 = true := by
    simp only [List.all_cons, Bool.and_eq_true] at h6
    exact h6.1
  have hB : List.dropWhile isWsChar ((n0 :: name') ++ ((w0 :: ws2') ++ (interfaceKw ++ (ws3 ++ braceOpenC :: rest)))) =
      (n0 :: name') ++ ((w0 :: ws2') ++ (interfaceKw ++ (ws3 ++ braceOpenC :: rest))) := by
    simp only [List.cons_append]
    exact dropWhile_cons_of_neg _ (wordChar_not_ws hn0)
  have htake : List.takeWhile isWordChar ((n0 :: name') ++ ((w0 :: ws2') ++ (interfaceKw ++ (ws3 ++ braceOpenC :: rest)))) = n0 :: name' := by
    rw [takeWhile_append_of_all _ h4]
    simp only [List.cons_append]
    rw [takeWhile_cons_of_neg _ (wsChar_not_word hw0), List.append_nil]
  have hdrop : List.dropWhile isWordChar ((n0 :: name') ++ ((w0 :: ws2') ++ (interfaceKw ++ (ws3 ++ braceOpenC :: rest)))) =
      (w0 :: ws2') ++ (interfaceKw ++ (ws3 ++ braceOpenC :: rest)) := by
    rw [dropWhile_append_of_all _ h4]
    simp only [List.cons_append]
    rw [dropWhile_cons_of_neg _ (wsChar_not_word hw0)]
  have hiface : List.dropWhile isWsChar (interfaceKw ++ (ws3 ++ braceOpenC :: rest)) =
      interfaceKw ++ (ws3 ++ braceOpenC :: rest) := by
    rw [show interfaceKw = 'i' :: "nterface".toList from rfl, List.cons_append]
    exact dropWhile_cons_of_neg _ (by decide)
  have hbrace : List.dropWhile isWsChar (ws3 ++ braceOpenC :: rest) = braceOpenC :: rest := by
    rw [dropWhile_append_of_all _ h7]
    exact dropWhile_cons_of_neg _ (by decide)
  unfold matchIfaceStart
  rw [dropLit_append]
  simp only
  rw [dropWs1_of_shape h1 h2 hB]
  simp only
  rw [htake, hdrop]
  rw [if_neg (by simp)]
  rw [dropWs1_of_shape h5 h6 hiface]
  simp only
  rw [dropLit_append]
  simp only
  rw [hbrace]
  simp only
  rw [if_pos (by simp)]

/-! ### Trimming lemmas -/

theorem trim_decomp (l : List Char) :
    ∃ a b, l = a ++ trimChars l ++ b ∧ a.all isWsChar = true ∧ b.all isWsChar = true := by
  refine ⟨List.takeWhile isWsChar l, ((l.dropWhile isWsChar).reverse.takeWhile isWsChar).reverse, ?_, all_takeWhile_self isWsChar l, ?_⟩
  · unfold trimChars
    conv_lhs => rw [← List.takeWhile_append_dropWhile (p := isWsChar) (l := l)]
    rw [List.append_assoc]
    congr 1
    conv_lhs => rw [← List.reverse_reverse (List.dropWhile isWsChar l)]
    rw [← List.reverse_append]
    congr 1
    rw [List.takeWhile_append_dropWhile]
  · rw [List.all_eq_true]
    intro c hc
    rw [List.mem_reverse] at hc
    have := all_takeWhile_self isWsChar (l.dropWhile isWsChar).reverse
    rw [List.all_eq_true] at this
    exact this c hc

theorem dropWhile_of_head_neg {p : Char → Bool} {l : List Char}
    (h : ∀ c l', l = c :: l' → p c = false) : List.dropWhile p l = l := by
  cases l with
  | nil => rfl
  | cons c l' => exact dropWhile_cons_of_neg _ (h c l' rfl)

/-- Removing trailing whitespace from a list with a distinguished
non-whitespace element keeps everything up to that element. -/
theorem trimTrailing_keep {y : Char} (hy : isWsChar y = false) (A rest : List Char) :
    ∃ rest', ((A ++ y :: rest).reverse.dropWhile isWsChar).reverse = A ++ y :: rest' := by
  rw [List.reverse_append, List.reverse_cons, List.append_assoc]
  rcases dropWhile_append_cases isWsChar rest.reverse ([y] ++ A.reverse) with ⟨he, _⟩ | he
  · rw [he]
    rw [show ([y] ++ A.reverse) = y :: A.reverse from rfl, dropWhile_cons_of_neg _ hy]
    exact ⟨[], by simp⟩
  · rw [he]
    refine ⟨(List.dropWhile isWsChar rest.reverse).reverse, ?_⟩
    simp [List.reverse_append]

/-- The leading-whitespace half of trimming: with an all-whitespace
prefix and a non-whitespace first retained character, `dropWhile`
removes exactly the prefix. -/
theorem dropWhile_ws_prefix {ws0 : List Char} {y : Char} (rest : List Char)
    (h0 : ws0.all isWsChar = true) (hy : isWsChar y = false) :
    List.dropWhile isWsChar (ws0 ++ y :: rest) = y :: rest := by
  rw [dropWhile_append_of_all _ h0]
  exact dropWhile_cons_of_neg _ hy

/-! ### Lemmas about the candidate sort -/

theorem insertItem_real {a : QuickPickItem} (h : a.isMock = false) (l : List QuickPickItem) :
    insertItem a l = a :: l := by
  cases l with
  | nil => rfl
  | cons b bs =>
    unfold insertItem
    rw [if_pos]
    rw [h]
    simp [jsNum]

theorem insertItem_mock {a : QuickPickItem} (h : a.isMock = true) (reals mocks : List QuickPickItem)
    (hr : ∀ x ∈ reals, x.isMock = false) (hm : ∀ x ∈ mocks, x.isMock = true) :
    insertItem a (reals ++ mocks) = reals ++ a :: mocks := by
  induction reals with
  | nil =>
    cases mocks with
    | nil => rfl
    | cons m ms =>
      simp only [List.nil_append]
      unfold insertItem
      rw [if_pos (show jsNum a.isMock ≤ jsNum m.isMock by rw [h, hm m (by simp)])]
  | cons r rs ih =>
    have hrm : r.isMock = false := hr r (by simp)
    simp only [List.cons_append]
    unfold insertItem
    rw [if_neg]
    · rw [ih (fun x hx => hr x (by simp [hx]))]
    · rw [h, hrm]
      simp [jsNum]

/-- The stable sort by mock classification is exactly: the candidates
classified real, in order, followed by the candidates classified mock,
in order. -/
theorem sortItems_eq_filter (l : List QuickPickItem) :
    sortItems l = l.filter (fun x => !x.isMock) ++ l.filter (fun x => x.isMock) := by
  induction l with
  | nil => rfl
  | cons a as ih =>
    unfold sortItems
    rw [ih]
    cases ha : a.isMock with
    | false =>
      rw [insertItem_real ha]
      simp [List.filter_cons, ha]
    | true =>
      rw [insertItem_mock ha _ _ (fun x hx => by simpa using List.of_mem_filter hx)
            (fun x hx => by simpa using List.of_mem_filter hx)]
      simp [List.filter_cons, ha]

/-! ### The scanner on simple interface blocks -/

theorem lensesFrom_length (ms : List SimpleSpec) : ∀ i, (lensesFrom i ms).length = ms.length := by
  induction ms with
  | nil => intro i; rfl
  | cons m tl ih =>
    intro i
    simp only [lensesFrom, List.length_cons, ih]

theorem emitLens_simple (m : SimpleSpec) (i : Nat) (h : SimpleMethod m) :
    emitLens m.line (trimChars m.line) i =
      Except.ok (some (mkLens (String.mk m.name) ⟨i, m.col⟩ ⟨i, m.col + m.name.length⟩)) := by
  obtain ⟨-, -, -, -, -, h6, h7⟩ := h
  unfold emitLens
  rw [h6]
  simp only
  rw [h7]
  unfold mkPosition
  simp only [Int.ofNat_eq_natCast]
  rw [if_neg (show ¬((i : Int) < 0) by omega)]
  rw [if_neg (show ¬((m.col : Int) < 0) by omega)]
  rw [if_neg (show ¬((i : Int) < 0) by omega)]
  rw [if_neg (show ¬((m.col : Int) + (m.name.length : Int) < 0) by omega)]
  simp only
  rw [show ((i : Int)).toNat = i by omega]
  rw [show ((m.col : Int)).toNat = m.col by omega]
  rw [show ((m.col : Int) + (m.name.length : Int)).toNat = m.col + m.name.length by omega]

theorem scanAux_cons_simple (m : SimpleSpec) (rest : List (List Char)) (i : Nat) (nm : String)
    (h : SimpleMethod m) :
    scanAux (m.line :: rest) i (ScanSt.inside nm 1) =
      withEmit (emitLens m.line (trimChars m.line) i) (scanAux rest (i + 1) (ScanSt.inside nm 1)) := by
  obtain ⟨h1, h2, h3, h4, h5, -, -⟩ := h
  simp only [scanAux]
  rw [h1]
  simp only
  rw [h2, h3]
  rw [if_neg (show ¬((1 : Int) + Int.ofNat 0 - Int.ofNat 0 = 0) by decide)]
  rw [h4]
  rw [if_neg (show ¬(false = true) by simp)]
  rw [if_pos h5]
  rw [show (1 : Int) + Int.ofNat 0 - Int.ofNat 0 = 1 from by decide]

theorem scanAux_close (i : Nat) (nm : String) :
    scanAux [closeLine] i (ScanSt.inside nm 1) = Except.ok [] := by
  simp only [scanAux]
  rw [show matchIfaceStart (trimChars closeLine) = none from rfl]
  simp only
  rw [show countChar braceOpenC closeLine = 0 from rfl,
      show countChar braceCloseC closeLine = 1 from rfl]
  rw [if_pos (show (1 : Int) + Int.ofNat 0 - Int.ofNat 1 = 0 by decide)]

/-- Scanning a list of simple method lines terminated by the closing
brace emits exactly one correctly-positioned anchor per method, in
order. -/
theorem scanAux_simple (ms : List SimpleSpec) :
    ∀ (i : Nat) (nm : String), (∀ m ∈ ms, SimpleMethod m) →
      scanAux (ms.map SimpleSpec.line ++ [closeLine]) i (ScanSt.inside nm 1) =
        Except.ok (lensesFrom i ms) := by
  induction ms with
  | nil =>
    intro i nm _
    exact scanAux_close i nm
  | cons m tl ih =>
    intro i nm hall
    have hm : SimpleMethod m := hall m (by simp)
    simp only [List.map_cons, List.cons_append]
    rw [scanAux_cons_simple m _ i nm hm]
    rw [ih (i + 1) nm (fun x hx => hall x (by simp [hx]))]
    rw [emitLens_simple m i hm]
    simp only [withEmit, Except.map, lensesFrom]

/-! ### Claim theorems -/

/-- C1: the claim states that for a method signature split across
physical lines, the single emitted anchor sits on the line where
extraction began (where the method name token appears).  Evaluating the
scanner on such a document refutes this: the method name `Fetch` appears
on line 1 (and the anchor's column, 1, is computed from line 1), but the
anchor is emitted on line 2, the last line consumed by the look-ahead
accumulation, because the source passes the advanced loop index to
`vscode.Position` while using the original line only for `indexOf`. -/
theorem c1_multiline_anchor_misplaced :
    provideCodeLenses ⟨false⟩ multilineDoc = Except.ok [mkLens "Fetch" ⟨2, 1⟩ ⟨2, 6⟩] := rfl

/-- C2: the claim states the scan completes without raising on every
input, explicitly including blank lines inside an interface body.
Evaluating the scanner on such a document refutes this: the blank line
starts look-ahead accumulation, the method name is extracted from the
accumulated text, `indexOf` on the blank original line returns `-1`, and
the `vscode.Position` constructor throws on the negative character. -/
theorem c2_blank_line_scan_raises :
    provideCodeLenses ⟨false⟩ blankLineDoc = Except.error "character must be non-negative" := rfl

/-- C3: the claim states a line blank after trimming is skipped,
contributing no anchors and no look-ahead accumulation.  In fact the
scanner has no blank-line check: processing the blank line of
`blankLineDoc` moves the machine into the accumulation state (first
conjunct), consuming the following method line, and the attempted
anchor emission then aborts the scan (second conjunct) instead of
contributing nothing. -/
theorem c3_blank_line_starts_accumulation :
    scanAux ["".toList, "\tFetch(id string) error".toList, "\x7d".toList] 1 (ScanSt.inside "X" 1) =
      scanAux ["\tFetch(id string) error".toList, "\x7d".toList] 2 (ScanSt.accum [] [] "X" 1) ∧
    provideCodeLenses ⟨false⟩ blankLineDoc = Except.error "character must be non-negative" :=
  ⟨rfl, rfl⟩

/-- C4 (counterexample): the claim states that a signalled cancellation
token makes the scanner abandon the scan and return no anchors; but
with the token signalled the scanner still returns the full anchor
list, which is not empty. -/
theorem c4_cancelled_scan_counterexample :
    provideCodeLenses ⟨true⟩ fetcherDoc = Except.ok [mkLens "Fetch" ⟨1, 1⟩ ⟨1, 6⟩] ∧
    (Except.ok [mkLens "Fetch" ⟨1, 1⟩ ⟨1, 6⟩] : Except String (List CodeLens)) ≠ Except.ok [] := by
  refine ⟨rfl, ?_⟩
  intro hcon
  simp at hcon

/-- C4 (amended): the scanner never consults the cancellation token; a
scan with any token — signalled or not — returns exactly the same
result. -/
theorem c4_token_ignored (t1 t2 : CancellationToken) (lines : List (List Char)) :
    provideCodeLenses t1 lines = provideCodeLenses t2 lines := rfl

/-- C5: the orchestrator's sort places all candidates classified real
before all classified mock, preserving relative order within each class
(it equals the real-classified sublist followed by the mock-classified
sublist), and in particular reorders the classification sequence
[mock, real, mock, real] to [real, real, mock, mock] keeping the
original relative order inside each class. -/
theorem c5_sort_real_before_mock :
    (∀ items : List QuickPickItem,
      sortItems items = items.filter (fun x => !x.isMock) ++ items.filter (fun x => x.isMock)) ∧
    sortItems [mockItemA, realItemB, mockItemC, realItemD] = [realItemB, realItemD, mockItemA, mockItemC] :=
  ⟨sortItems_eq_filter, rfl⟩

/-- C6 (counterexample): the claim states a line with further content
after the opening brace is not detected as an interface declaration;
but `interfaceStartRegex` has no end anchor, and the scanner detects
`type A interface { x` (capturing the name `A`). -/
theorem c6_trailing_content_detected :
    matchIfaceStart (trimChars ("type A interface \x7b x".toList)) = some ("A".toList) := rfl

/-- C6 (amended): a line is detected as an interface-declaration line
exactly when it consists of optional leading whitespace, the `type`
keyword, whitespace, an identifier, whitespace, the `interface`
keyword, optional whitespace, and an opening brace — after which
arbitrary further content is permitted (the brace need not be at line
end; trailing content only ends up in the unexamined residue). -/
theorem c6_iface_line_detection_iff (line : List Char) :
    (matchIfaceStart (trimChars line)).isSome = true ↔
      ∃ ws0 ws1 name ws2 ws3 rest,
        line = ws0 ++ (typeKw ++ (ws1 ++ (name ++ (ws2 ++ (interfaceKw ++ (ws3 ++ braceOpenC :: rest)))))) ∧
        ws0.all isWsChar = true ∧
        ws1 ≠ [] ∧ ws1.all isWsChar = true ∧
        name ≠ [] ∧ name.all isWordChar = true ∧
        ws2 ≠ [] ∧ ws2.all isWsChar = true ∧
        ws3.all isWsChar = true := by
  constructor
  · intro hsome
    obtain ⟨name, hname⟩ := Option.isSome_iff_exists.mp hsome
    obtain ⟨ws1, ws2, ws3, rest0, htrim, hw1ne, hw1, hnne, hnall, hw2ne, hw2, hw3⟩ :=
      matchIfaceStart_some_decomp hname
    obtain ⟨a, b, hline, ha, hb⟩ := trim_decomp line
    refine ⟨a, ws1, name, ws2, ws3, rest0 ++ b, ?_, ha, hw1ne, hw1, hnne, hnall, hw2ne, hw2, hw3⟩
    rw [hline, htrim]
    simp [List.append_assoc]
  · rintro ⟨ws0, ws1, name, ws2, ws3, rest, hline, hws0, hw1ne, hw1, hnne, hnall, hw2ne, hw2, hw3⟩
    have hdw : List.dropWhile isWsChar line =
        typeKw ++ (ws1 ++ (name ++ (ws2 ++ (interfaceKw ++ (ws3 ++ braceOpenC :: rest))))) := by
      rw [hline]
      exact dropWhile_ws_prefix _ hws0 (by decide)
    have hassoc : typeKw ++ (ws1 ++ (name ++ (ws2 ++ (interfaceKw ++ (ws3 ++ braceOpenC :: rest))))) =
        (typeKw ++ ws1 ++ name ++ ws2 ++ interfaceKw ++ ws3) ++ braceOpenC :: rest := by
      simp [List.append_assoc]
    obtain ⟨rest', hrest'⟩ :=
      trimTrailing_keep (show isWsChar braceOpenC = false by decide)
        (typeKw ++ ws1 ++ name ++ ws2 ++ interfaceKw ++ ws3) rest
    have htrim : trimChars line =
        typeKw ++ (ws1 ++ (name ++ (ws2 ++ (interfaceKw ++ (ws3 ++ braceOpenC :: rest'))))) := by
      unfold trimChars
      rw [hdw, hassoc, hrest']
      simp [List.append_assoc]
    rw [htrim, matchIfaceStart_of_shape hw1ne hw1 hnne hnall hw2ne hw2 hw3]
    rfl

/-- C6 (witness for the amended characterization): a representative
line with leading whitespace and trailing content after the brace is
detected. -/
theorem c6_iface_line_detection_iff_witness :
    (matchIfaceStart (trimChars ("  type Foo interface \x7b rest".toList))).isSome = true :=
  (c6_iface_line_detection_iff ("  type Foo interface \x7b rest".toList)).mpr
    ⟨"  ".toList, " ".toList, "Foo".toList, " ".toList, " ".toList, " rest".toList,
     by decide, by decide, by decide, by decide, by decide, by decide, by decide, by decide, by decide⟩

/-- C7: for a document made of one interface declaration line, N simple
one-line method lines, and the closing brace, the scanner emits exactly
N anchors, in declaration order, each spanning the method name's
characters at its true line and column (`lensesFrom 1 ms` anchors line
`k` at the column where the name first occurs on it). -/
theorem c7_simple_block (t : CancellationToken) (decl : List Char) (nm : List Char)
    (ms : List SimpleSpec)
    (hdecl : matchIfaceStart (trimChars decl) = some nm)
    (hms : ∀ m ∈ ms, SimpleMethod m) :
    provideCodeLenses t (decl :: (ms.map SimpleSpec.line ++ [closeLine])) =
      Except.ok (lensesFrom 1 ms) ∧
    (lensesFrom 1 ms).length = ms.length := by
  constructor
  · unfold provideCodeLenses
    simp only [scanAux]
    rw [hdecl]
    exact scanAux_simple ms 1 (String.mk nm) hms
  · exact lensesFrom_length ms 1

/-- C7 (witness): the specification's concrete scenario — the `Fetcher`
interface with the single method line `\tFetch(id string) (Item, error)`
yields exactly one anchor for `Fetch` at line 1, columns 1 to 6. -/
theorem c7_simple_block_witness :
    provideCodeLenses ⟨false⟩ fetcherDoc = Except.ok [mkLens "Fetch" ⟨1, 1⟩ ⟨1, 6⟩] := by
  have h := c7_simple_block ⟨false⟩ ("type Fetcher interface \x7b".toList) ("Fetcher".toList)
    [⟨"\tFetch(id string) (Item, error)".toList, "Fetch".toList, 1⟩] (by decide) (by decide)
  exact h.1

/-- C8: whenever the implementation query returns zero locations, the
handler shows exactly one informational notice, the notice contains the
method's name, the picker is never invoked, and no navigation is
requested (and no error notice is shown). -/
theorem c8_zero_results (h : Host) (uri : Uri) (range : Range) (methodName : String)
    (hq : h.executeImplementationProvider uri range.start = Except.ok []) :
    gotoImplementation h uri range methodName = ⟨[noImplMsg methodName], [], 0, []⟩ ∧
    (gotoImplementation h uri range methodName).infos.length = 1 ∧
    jsIncludes (noImplMsg methodName).toList methodName.toList = true := by
  have hmain : gotoImplementation h uri range methodName = ⟨[noImplMsg methodName], [], 0, []⟩ := by
    unfold gotoImplementation
    rw [hq]
    simp only
    rw [if_neg (by simp)]
  refine ⟨hmain, by simp [hmain], ?_⟩
  have hsplit : (noImplMsg methodName).toList =
      "No implementations found for ".toList ++ methodName.toList := by
    unfold noImplMsg
    rw [strToList_append]
  rw [hsplit]
  exact jsIncludes_append_self _ _

/-- C8 (witness): a host returning zero locations for method `Fetch`
produces exactly the informational notice and neither picker nor
navigation activity. -/
theorem c8_zero_results_witness :
    gotoImplementation hostNoResults demoUri demoRange "Fetch" = ⟨[noImplMsg "Fetch"], [], 0, []⟩ ∧
    (gotoImplementation hostNoResults demoUri demoRange "Fetch").infos.length = 1 ∧
    jsIncludes (noImplMsg "Fetch").toList "Fetch".toList = true :=
  c8_zero_results hostNoResults demoUri demoRange "Fetch" rfl

/-- C9: every failure of the implementation query, of opening a target
document (inside `buildItems`), or of navigation is caught inside the
invocation and surfaced as the single error notice carrying the
underlying cause; `gotoImplementation` is a total function into
`Effects`, so no failure propagates out of the handler, and every error
notice it can ever emit is the catch-block message containing its
cause. -/
theorem c9_failures_caught (h : Host) (uri : Uri) (range : Range) (methodName : String) :
    (∀ e, h.executeImplementationProvider uri range.start = Except.error e →
      gotoImplementation h uri range methodName = ⟨[], [errMsg e], 0, []⟩) ∧
    (∀ impls e, h.executeImplementationProvider uri range.start = Except.ok impls →
      impls.length > 0 → buildItems h impls = Except.error e →
      gotoImplementation h uri range methodName = ⟨[], [errMsg e], 0, []⟩) ∧
    (∀ impls items sel e, h.executeImplementationProvider uri range.start = Except.ok impls →
      impls.length > 0 → buildItems h impls = Except.ok items →
      h.showQuickPick (sortItems items) = some sel →
      h.showTextDocument sel.location = Except.error e →
      gotoImplementation h uri range methodName = ⟨[], [errMsg e], 1, []⟩) ∧
    (∀ m ∈ (gotoImplementation h uri range methodName).errors,
      ∃ c, m = errMsg c ∧ jsIncludes m.toList c.toList = true) := by
  have herrInc : ∀ e : String, jsIncludes (errMsg e).toList e.toList = true := by
    intro e
    have : (errMsg e).toList = "Error while finding implementations: ".toList ++ e.toList := by
      unfold errMsg
      rw [strToList_append]
    rw [this]
    exact jsIncludes_append_self _ _
  refine ⟨?_, ?_, ?_, ?_⟩
  · intro e he
    unfold gotoImplementation
    rw [he]
  · intro impls e hq hlen hb
    unfold gotoImplementation
    rw [hq]
    simp only
    rw [if_pos hlen, hb]
  · intro impls items sel e hq hlen hb hp hn
    unfold gotoImplementation
    rw [hq]
    simp only
    rw [if_pos hlen, hb]
    simp only
    rw [hp]
    simp only
    rw [hn]
  · intro m hm
    unfold gotoImplementation at hm
    cases hq : h.executeImplementationProvider uri range.start with
    | error e =>
      rw [hq] at hm
      simp only at hm
      rw [List.mem_singleton] at hm
      subst hm
      exact ⟨e, rfl, herrInc e⟩
    | ok impls =>
      rw [hq] at hm
      simp only at hm
      by_cases hlen : impls.length > 0
      · rw [if_pos hlen] at hm
        cases hb : buildItems h impls with
        | error e =>
          rw [hb] at hm
          simp only at hm
          rw [List.mem_singleton] at hm
          subst hm
          exact ⟨e, rfl, herrInc e⟩
        | ok items =>
          rw [hb] at hm
          simp only at hm
          cases hp : h.showQuickPick (sortItems items) with
          | none =>
            rw [hp] at hm
            simp at hm
          | some sel =>
            rw [hp] at hm
            simp only at hm
            cases hn : h.showTextDocument sel.location with
            | ok u =>
              rw [hn] at hm
              simp at hm
            | error e =>
              rw [hn] at hm
              simp only at hm
              rw [List.mem_singleton] at hm
              subst hm
              exact ⟨e, rfl, herrInc e⟩
      · rw [if_neg hlen] at hm
        simp at hm

/-- C9 (witness): a host whose query fails with cause `boom` yields the
single catch-block error notice and nothing else. -/
theorem c9_failures_caught_witness :
    gotoImplementation hostQueryFails demoUri demoRange "Fetch" = ⟨[], [errMsg "boom"], 0, []⟩ :=
  (c9_failures_caught hostQueryFails demoUri demoRange "Fetch").1 "boom" rfl

/-- C10: a line matched as an interface declaration resets the
brace-nesting depth to exactly 1 and moves to the next line without
counting any other brace on the declaration line — both from outside an
interface and while already inside one, whatever the previous depth.
Consequently `type X interface \x7b\x7d` leaves the scanner inside the
interface for the following lines, as the concrete document shows: the
method on the line after the one-line declaration is still anchored. -/
theorem c10_decl_resets_depth :
    (∀ (l : List Char) (rest : List (List Char)) (i : Nat) (nm : List Char),
      matchIfaceStart (trimChars l) = some nm →
      scanAux (l :: rest) i ScanSt.outside = scanAux rest (i + 1) (ScanSt.inside (String.mk nm) 1)) ∧
    (∀ (l : List Char) (rest : List (List Char)) (i : Nat) (ifName : String) (bc : Int) (nm : List Char),
      matchIfaceStart (trimChars l) = some nm →
      scanAux (l :: rest) i (ScanSt.inside ifName bc) = scanAux rest (i + 1) (ScanSt.inside (String.mk nm) 1)) ∧
    provideCodeLenses ⟨false⟩ oneLineDeclDoc = Except.ok [mkLens "Foo" ⟨1, 1⟩ ⟨1, 4⟩] := by
  refine ⟨?_, ?_, rfl⟩
  · intro l rest i nm hm
    simp only [scanAux]
    rw [hm]
  · intro l rest i ifName bc nm hm
    simp only [scanAux]
    rw [hm]

/-- C10 (witness): the one-line declaration `type X interface \x7b\x7d`
is matched and the scanner continues on the next line inside interface
`X` at depth 1 — the closing brace on the declaration line was not
counted. -/
theorem c10_decl_resets_depth_witness :
    scanAux ["type X interface \x7b\x7d".toList, "\tFoo() error".toList, "\x7d".toList] 0 ScanSt.outside =
      scanAux ["\tFoo() error".toList, "\x7d".toList] 1 (ScanSt.inside "X" 1) :=
  (c10_decl_resets_depth).1 ("type X interface \x7b\x7d".toList)
    ["\tFoo() error".toList, "\x7d".toList] 0 ("X".toList) (by decide)
